import Mathlib

/-!
Shallow embedding of `src/app.py` (a Flask app that turns chess.com game
records into a daily OHLC rating chart) and proofs about it.

Modelling conventions:
* Machine time (`time.time()`) is passed explicitly as a `Nat` argument.
  `time.time() - timestamp < self.timeout` is modelled with truncated `Nat`
  subtraction, which decides the comparison identically for `timeout > 0`.
* HTTP traffic is abstracted into response inductives: a response either
  carries a status code plus an already-parsed JSON body, or it is a
  connection-level failure (`requests.exceptions.RequestException`, raised
  after the transport's retries are exhausted).  The URL-string parsing of
  archive entries is abstracted to the `(year, month)` pairs it yields.
* `pandas` observations (`date`, `rating`, `timestamp` columns) become the
  `Obs` structure; dates are day numbers (`Nat`), `datetime.date` of an
  epoch timestamp `t` is modelled as `t / 86400`.
* Plotly figures carry the OHLC columns; we model the figure (and the HTML
  rendered from it) as the list of `DailyBar` rows it plots.
-/

namespace ChessApp

/-- A rating observation row, as built by `extract_game_data`
(`date`, `rating`, `timestamp` columns of the DataFrame). -/
structure Obs where
  date : Nat
  rating : Int
  timestamp : Nat
deriving DecidableEq

/-- One row of the completed OHLC frame (`ohlc_complete`). The Python column
`open` is named `open_` because `open` is a Lean keyword. -/
structure DailyBar where
  date : Nat
  open_ : Int
  high : Int
  low : Int
  close : Int
deriving DecidableEq

/-- The comparison key used by `df.sort_values('timestamp')`. -/
def tsLE (a b : Obs) : Prop := a.timestamp ≤ b.timestamp

instance : DecidableRel tsLE := fun a b => Nat.decLe a.timestamp b.timestamp

instance : IsTotal Obs tsLE := ⟨fun a b => Nat.le_total a.timestamp b.timestamp⟩

instance : IsTrans Obs tsLE := ⟨fun _ _ _ h h₂ => Nat.le_trans h h₂⟩

/-- Running maximum of a list with seed `a` (models pandas `.max()` over a
nonempty column when seeded with its first element). -/
def foldMax {α : Type} [LinearOrder α] (a : α) : List α → α
  | [] => a
  | x :: xs => foldMax (max a x) xs

/-- Running minimum of a list with seed `a`. -/
def foldMin {α : Type} [LinearOrder α] (a : α) : List α → α
  | [] => a
  | x :: xs => foldMin (min a x) xs

/-- Maximum of a list column; `0` for the empty list (only used nonempty). -/
def listMax : List Nat → Nat
  | [] => 0
  | a :: t => foldMax a t

/-- Minimum of a list column; `0` for the empty list (only used nonempty). -/
def listMin : List Nat → Nat
  | [] => 0
  | a :: t => foldMin a t

/-- The grouped OHLC row for calendar day `d`, given that day's observation
rows in frame order (`groupby('date')` with `first`/`max`/`min`/`last`
aggregation over the `rating` column).  `groupby` only produces nonempty
groups; the `[]` case returns a junk all-zero row and is never reached. -/
def barOf (d : Nat) (g : List Obs) : DailyBar :=
  match g with
  | [] => ⟨d, 0, 0, 0, 0⟩
  | o :: rest =>
    ⟨d, o.rating,
      foldMax o.rating (rest.map (fun x => x.rating)),
      foldMin o.rating (rest.map (fun x => x.rating)),
      (rest.getLastD o).rating⟩

/-- The merge + forward-fill walk over the full calendar range
(lines 178-192 of `app.py`): for each day in `days`, take its grouped OHLC
row if one exists, otherwise emit a flat bar at the forward-filled close
`c`.  The carry `c` starts at a junk value that is never used because the
first day of the range always has a grouped row. -/
def fillDays (g : List DailyBar) : Int → List Nat → List DailyBar
  | _, [] => []
  | c, d :: days =>
    match g.find? (fun b => b.date == d) with
    | some b => b :: fillDays g b.close days
    | none => ⟨d, c, c, c, c⟩ :: fillDays g c days

/-- Value of the forward-filled close (`close_ffill`) after walking `days`:
the close of the last day in `days` that has a grouped row, else the
incoming carry `c`.  Proof-side companion of `fillDays`. -/
def lastCloseIn (g : List DailyBar) : Int → List Nat → Int
  | c, [] => c
  | c, d :: days =>
    match g.find? (fun b => b.date == d) with
    | some b => lastCloseIn g b.close days
    | none => lastCloseIn g c days

/-- Body of `create_candlestick_chart` after the `sort_values('timestamp')`
step: group the sorted rows by date (group keys ascending, as pandas
`groupby` sorts them), build the inclusive calendar range from the min to
the max grouped date (`pd.date_range`), left-merge and forward fill. -/
def chartOfSorted (s : List Obs) : Option (List DailyBar) :=
  let dates := List.insertionSort (fun a b => a ≤ b) ((s.map (fun o => o.date)).dedup)
  let g := dates.map (fun d => barOf d (s.filter (fun o => o.date == d)))
  if g.isEmpty then none
  else
    let ds := g.map (fun b => b.date)
    some (fillDays g 0 (List.range' (listMin ds) (listMax ds + 1 - listMin ds)))

/-- `create_candlestick_chart(df, time_control)` (lines 157-231): `None` on
an empty frame, otherwise the completed OHLC rows.  The `time_control`
argument only affects the chart title and is dropped; the figure is
modelled as its OHLC rows. -/
def create_candlestick_chart (l : List Obs) : Option (List DailyBar) :=
  if l.isEmpty then none else chartOfSorted (List.insertionSort tsLE l)

/-- Day `d` has at least one observation in `l`. -/
def hasObs (l : List Obs) (d : Nat) : Prop := ∃ o ∈ l, o.date = d

/-- Boolean form of `hasObs`. -/
def hasObsB (l : List Obs) (d : Nat) : Bool := l.any (fun o => o.date == d)

instance (l : List Obs) (d : Nat) : Decidable (hasObs l d) :=
  inferInstanceAs (Decidable (∃ o ∈ l, o.date = d))

/-- The observation rows in frame order after `sort_values('timestamp')`. -/
def sortedObs (l : List Obs) : List Obs := List.insertionSort tsLE l

/-- The day-`d` group of the timestamp-sorted observations. -/
def obsOfDay (l : List Obs) (d : Nat) : List Obs :=
  (sortedObs l).filter (fun o => o.date == d)

/-- The ascending group keys of `groupby('date')`. -/
def groupDates (l : List Obs) : List Nat :=
  List.insertionSort (fun a b => a ≤ b) (((sortedObs l).map (fun o => o.date)).dedup)

/-- The grouped OHLC frame `ohlc_df`, one row per observed date. -/
def chartGroups (l : List Obs) : List DailyBar :=
  (groupDates l).map (fun d => barOf d ((sortedObs l).filter (fun o => o.date == d)))

instance : IsAntisymm Obs (fun a b => a.timestamp < b.timestamp) :=
  ⟨fun a _ h h₂ => absurd (Nat.lt_trans h h₂) (Nat.lt_irrefl a.timestamp)⟩

/-- Minimum observed date (`ohlc_df['date'].min()` over all observations). -/
def minDate (l : List Obs) : Nat := listMin (l.map (fun o => o.date))

/-- Maximum observed date. -/
def maxDate (l : List Obs) : Nat := listMax (l.map (fun o => o.date))

/-- The in-memory TTL cache (`SimpleCache`, lines 25-40).  The Python dict
is modelled as an association list with unique keys; entries pair the
stored value with their insertion time. -/
structure SimpleCache (α : Type) where
  cache : List (String × α × Nat)
  timeout : Nat
deriving DecidableEq

/-- Dict lookup `self.cache[key]` guarded by `key in self.cache`. -/
def lookupEntry {α : Type} (m : List (String × α × Nat)) (k : String) : Option (α × Nat) :=
  (m.find? (fun e => e.1 == k)).map (fun e => e.2)

/-- `SimpleCache.get` at machine time `now`: a hit while
`now - timestamp < timeout`, otherwise the entry is deleted and `None`
returned.  Returns the possibly-mutated cache alongside the result. -/
def SimpleCache.get {α : Type} (c : SimpleCache α) (now : Nat) (key : String) :
    Option α × SimpleCache α :=
  match lookupEntry c.cache key with
  | some (v, ts) =>
    if now - ts < c.timeout then (some v, c)
    else (none, ⟨c.cache.filter (fun e => !(e.1 == key)), c.timeout⟩)
  | none => (none, c)

/-- `SimpleCache.set` at machine time `now`: dict assignment, replacing any
previous entry under the key. -/
def SimpleCache.set {α : Type} (c : SimpleCache α) (now : Nat) (key : String) (v : α) :
    SimpleCache α :=
  ⟨(key, v, now) :: c.cache.filter (fun e => !(e.1 == key)), c.timeout⟩

/-- Upstream response to the profile lookup `GET /pub/player/{username}`:
a status code, or a connection-level failure carrying the exception text. -/
inductive ProfileResponse where
  | http (status : Nat)
  | netErr (msg : String)
deriving DecidableEq

/-- Upstream response to the archives listing, with the `(year, month)`
pairs parsed from the `archives` URL list. -/
inductive ArchivesResponse where
  | http (status : Nat) (archives : List (Nat × Nat))
  | netErr
deriving DecidableEq

/-- Python `str.lower()`, modelled character-wise over the string's
characters (kept executable; Lean's own `String.toLower` is a byte-position
loop the kernel cannot evaluate). -/
def toLowerStr (s : String) : String := ⟨s.data.map Char.toLower⟩

/-- Python `str.strip()`: remove leading and trailing whitespace. -/
def trimStr (s : String) : String :=
  ⟨((s.data.dropWhile Char.isWhitespace).reverse.dropWhile Char.isWhitespace).reverse⟩

/-- One side of a raw game record (`white` / `black` sub-dicts); absent
`username` / `rating` keys are `none` (the code reads them with
`dict.get` defaults). -/
structure Side where
  username : Option String
  rating : Option Int
deriving DecidableEq

/-- A raw game record as consumed by the pipeline. -/
structure RawGame where
  white : Side
  black : Side
  end_time : Option Nat
  time_class : Option String
deriving DecidableEq

/-- Upstream response to a monthly games fetch, with the parsed `games`
list. -/
inductive MonthResponse where
  | http (status : Nat) (games : List RawGame)
  | netErr
deriving DecidableEq

/-- `get_user_profile` (lines 69-84): 200 returns the profile (modelled as
`Unit`, the body is unused downstream), 404 raises
`ChessAPIError("User not found")`, any other status raises
`ChessAPIError("API error: ...")`, and a request exception raises
`ChessAPIError("Network error: ...")`.  Raising is modelled with `Except`. -/
def get_user_profile (r : ProfileResponse) : Except String Unit :=
  match r with
  | .http status =>
    if status = 200 then .ok ()
    else if status = 404 then .error "User not found"
    else .error ("API error: " ++ toString status)
  | .netErr msg => .error ("Network error: " ++ msg)

/-- `get_user_archives` (lines 86-107): on 200 return the parsed
`(year, month)` list; on any other status log a warning and return `[]`;
on a request exception log an error and return `[]`. -/
def get_user_archives (r : ArchivesResponse) : List (Nat × Nat) :=
  match r with
  | .http status archives => if status = 200 then archives else []
  | .netErr => []

/-- `get_single_month_games` (lines 109-127): on 200 return the games
filtered to `time_class == mode`; on 404 return `[]` silently; on any
other status log a warning and return `[]`; on a request exception return
`[]`. -/
def get_single_month_games (r : MonthResponse) (time_class : String) : List RawGame :=
  match r with
  | .http status games =>
    if status = 200 then games.filter (fun g => g.time_class == some time_class)
    else []
  | .netErr => []

/-- Loop body of `extract_game_data` (lines 137-153) for one record: pick
the side whose (lowercased, defaulted-empty) username matches the queried
player, then emit an observation only when `end_time` is truthy — a
missing `end_time` (`none`) and an `end_time` of `0` both yield nothing.
A missing rating defaults to `0`. -/
def extractObs (username : String) (game : RawGame) : Option Obs :=
  let white_username := toLowerStr (game.white.username.getD "")
  let player_data := if white_username = toLowerStr username then game.white else game.black
  match game.end_time with
  | none => none
  | some 0 => none
  | some t => some ⟨t / 86400, player_data.rating.getD 0, t⟩

/-- `extract_game_data(games, username)` (lines 129-155): the loop appends
one observation per record with a truthy `end_time`. -/
def extract_game_data (games : List RawGame) (username : String) : List Obs :=
  games.filterMap (extractObs username)

/-- The upstream world a request runs against: the profile response, the
archives response, and the monthly response for each `(year, month)`. -/
structure World where
  profile : ProfileResponse
  archives : ArchivesResponse
  months : Nat → Nat → MonthResponse

/-- `fetch_and_process_games` (lines 233-278): profile lookup, archive
listing, concurrent monthly fetch (`executor.map` keeps input order; the
loop extends `all_games` in that order), extraction, aggregation.  A
`ChessAPIError` from the profile lookup becomes the returned error
string. -/
def fetch_and_process_games (w : World) (username time_control : String) :
    Option (List DailyBar) × Option String :=
  match get_user_profile w.profile with
  | .error e => (none, some e)
  | .ok _ =>
    let months := get_user_archives w.archives
    if months.isEmpty then (none, some "No games found for this user.")
    else
      let all_games := List.foldl
        (fun acc p => acc ++ get_single_month_games (w.months p.1 p.2) time_control) [] months
      let game_data := extract_game_data all_games username
      if game_data.isEmpty then
        (none, some ("No " ++ time_control ++ " games found for " ++ username ++ "."))
      else
        match create_candlestick_chart game_data with
        | some fig => (some fig, none)
        | none => (none, some "Failed to create chart.")

/-- Outcome of the POST handler: the index page (optionally with an error
message), or the chart page with its rendered chart. -/
inductive PageResult where
  | indexPage (error : Option String)
  | chartPage (username time_control : String) (chart_html : List DailyBar)
deriving DecidableEq

/-- `validate_username` (lines 63-67): length 2..30 and only ASCII
alphanumerics, underscore or hyphen (the character class of the regex
`^[a-zA-Z0-9_-]+$`), checked over the string's characters. -/
def validate_username (username : String) : Bool :=
  if username.data.length < 2 || username.data.length > 30 then false
  else username.data.all (fun c => c.isAlphanum || c == '_' || c == '-')

/-- The POST branch of the `index` route (lines 282-317): validate the
form fields, consult the TTL cache under key `"{username}_{time_control}"`,
otherwise run the pipeline and cache the rendered chart only when a figure
was produced.  Returns the page plus the cache state after the request. -/
def index_post (st : SimpleCache (List DailyBar)) (now : Nat) (w : World)
    (usernameForm time_controlForm : String) :
    PageResult × SimpleCache (List DailyBar) :=
  let username := trimStr usernameForm
  let time_control := toLowerStr (trimStr time_controlForm)
  if !(validate_username username) then (.indexPage (some "Invalid username format."), st)
  else if !(["bullet", "blitz", "rapid", "daily"].contains time_control) then
    (.indexPage (some "Invalid time control selected."), st)
  else
    let cache_key := username ++ "_" ++ time_control
    match st.get now cache_key with
    | (some cached, st₁) => (.chartPage username time_control cached, st₁)
    | (none, st₁) =>
      match fetch_and_process_games w username time_control with
      | (_, some e) => (.indexPage (some e), st₁)
      | (some fig, none) => (.chartPage username time_control fig, st₁.set now cache_key fig)
      | (none, none) => (.indexPage (some "Failed to create chart."), st₁)

/-! ### Running-extremum lemmas -/

theorem foldMax_mem {α : Type} [LinearOrder α] (xs : List α) :
    ∀ a : α, foldMax a xs = a ∨ foldMax a xs ∈ xs := by
  induction xs with
  | nil => intro a; exact Or.inl rfl
  | cons x xs ih =>
    intro a
    rcases ih (max a x) with h | h
    · rcases max_choice a x with hm | hm
      · left; simp only [foldMax]; rw [h, hm]
      · right; simp only [foldMax]; rw [h, hm]; exact List.mem_cons_self x xs
    · right; exact List.mem_cons_of_mem x (by simp only [foldMax]; exact h)

theorem le_foldMax {α : Type} [LinearOrder α] (xs : List α) : ∀ a : α, a ≤ foldMax a xs := by
  induction xs with
  | nil => intro a; exact le_refl a
  | cons x xs ih =>
    intro a
    simp only [foldMax]
    exact le_trans (le_max_left a x) (ih (max a x))

theorem mem_le_foldMax {α : Type} [LinearOrder α] (xs : List α) :
    ∀ (a x : α), x ∈ xs → x ≤ foldMax a xs := by
  induction xs with
  | nil => intro a x hx; cases hx
  | cons y ys ih =>
    intro a x hx
    simp only [foldMax]
    rcases List.mem_cons.mp hx with h | h
    · subst h; exact le_trans (le_max_right a x) (le_foldMax ys (max a x))
    · exact ih (max a y) x h

theorem foldMin_mem {α : Type} [LinearOrder α] (xs : List α) :
    ∀ a : α, foldMin a xs = a ∨ foldMin a xs ∈ xs := by
  induction xs with
  | nil => intro a; exact Or.inl rfl
  | cons x xs ih =>
    intro a
    rcases ih (min a x) with h | h
    · rcases min_choice a x with hm | hm
      · left; simp only [foldMin]; rw [h, hm]
      · right; simp only [foldMin]; rw [h, hm]; exact List.mem_cons_self x xs
    · right; exact List.mem_cons_of_mem x (by simp only [foldMin]; exact h)

theorem foldMin_le {α : Type} [LinearOrder α] (xs : List α) : ∀ a : α, foldMin a xs ≤ a := by
  induction xs with
  | nil => intro a; exact le_refl a
  | cons x xs ih =>
    intro a
    simp only [foldMin]
    exact le_trans (ih (min a x)) (min_le_left a x)

theorem foldMin_le_mem {α : Type} [LinearOrder α] (xs : List α) :
    ∀ (a x : α), x ∈ xs → foldMin a xs ≤ x := by
  induction xs with
  | nil => intro a x hx; cases hx
  | cons y ys ih =>
    intro a x hx
    simp only [foldMin]
    rcases List.mem_cons.mp hx with h | h
    · subst h; exact le_trans (foldMin_le ys (min a x)) (min_le_right a x)
    · exact ih (min a y) x h

theorem listMax_mem (xs : List Nat) (h : xs ≠ []) : listMax xs ∈ xs := by
  cases xs with
  | nil => exact absurd rfl h
  | cons a t =>
    simp only [listMax]
    rcases foldMax_mem t a with h₂ | h₂
    · rw [h₂]; exact List.mem_cons_self a t
    · exact List.mem_cons_of_mem a h₂

theorem le_listMax (xs : List Nat) (x : Nat) (hx : x ∈ xs) : x ≤ listMax xs := by
  cases xs with
  | nil => cases hx
  | cons a t =>
    simp only [listMax]
    rcases List.mem_cons.mp hx with h | h
    · subst h; exact le_foldMax t x
    · exact mem_le_foldMax t a x h

theorem listMin_mem (xs : List Nat) (h : xs ≠ []) : listMin xs ∈ xs := by
  cases xs with
  | nil => exact absurd rfl h
  | cons a t =>
    simp only [listMin]
    rcases foldMin_mem t a with h₂ | h₂
    · rw [h₂]; exact List.mem_cons_self a t
    · exact List.mem_cons_of_mem a h₂

theorem listMin_le (xs : List Nat) (x : Nat) (hx : x ∈ xs) : listMin xs ≤ x := by
  cases xs with
  | nil => cases hx
  | cons a t =>
    simp only [listMin]
    rcases List.mem_cons.mp hx with h | h
    · subst h; exact foldMin_le t x
    · exact foldMin_le_mem t a x h

theorem listMin_congr (xs ys : List Nat) (hx : xs ≠ []) (hy : ys ≠ [])
    (h : ∀ x, x ∈ xs ↔ x ∈ ys) : listMin xs = listMin ys :=
  le_antisymm (listMin_le xs _ ((h _).mpr (listMin_mem ys hy)))
    (listMin_le ys _ ((h _).mp (listMin_mem xs hx)))

theorem listMax_congr (xs ys : List Nat) (hx : xs ≠ []) (hy : ys ≠ [])
    (h : ∀ x, x ∈ xs ↔ x ∈ ys) : listMax xs = listMax ys :=
  le_antisymm (le_listMax ys _ ((h _).mp (listMax_mem xs hx)))
    (le_listMax xs _ ((h _).mpr (listMax_mem ys hy)))

/-! ### Observation-group lemmas -/

theorem hasObsB_iff (l : List Obs) (d : Nat) : hasObsB l d = true ↔ hasObs l d := by
  simp [hasObsB, hasObs, List.any_eq_true]

theorem mem_sortedObs (l : List Obs) (o : Obs) : o ∈ sortedObs l ↔ o ∈ l :=
  (List.perm_insertionSort tsLE l).mem_iff

theorem mem_obsOfDay (l : List Obs) (d : Nat) (o : Obs) :
    o ∈ obsOfDay l d ↔ o ∈ l ∧ o.date = d := by
  simp [obsOfDay, List.mem_filter, mem_sortedObs]

theorem sorted_obsOfDay (l : List Obs) (d : Nat) : List.Sorted tsLE (obsOfDay l d) :=
  (List.sorted_insertionSort tsLE l).filter _

theorem obsOfDay_ne_nil (l : List Obs) (d : Nat) (h : hasObs l d) : obsOfDay l d ≠ [] := by
  rcases h with ⟨o, ho, hd⟩
  exact List.ne_nil_of_mem ((mem_obsOfDay l d o).mpr ⟨ho, hd⟩)

theorem sorted_getLastD (rest : List Obs) :
    ∀ o₀ : Obs, List.Sorted tsLE (o₀ :: rest) →
      rest.getLastD o₀ ∈ o₀ :: rest ∧ ∀ y ∈ o₀ :: rest, tsLE y (rest.getLastD o₀) := by
  induction rest with
  | nil =>
    intro o₀ _
    refine ⟨List.mem_cons_self o₀ [], ?_⟩
    intro y hy
    rcases List.mem_cons.mp hy with h | h
    · subst h; exact Nat.le_refl _
    · cases h
  | cons x rest ih =>
    intro o₀ hs
    have ht : List.Sorted tsLE (x :: rest) := hs.of_cons
    have h01 : tsLE o₀ x := List.rel_of_sorted_cons hs x (List.mem_cons_self x rest)
    obtain ⟨hmem, hub⟩ := ih x ht
    rw [List.getLastD_cons]
    refine ⟨List.mem_cons_of_mem o₀ hmem, ?_⟩
    intro y hy
    rcases List.mem_cons.mp hy with h | h
    · subst h; exact Nat.le_trans h01 (hub x (List.mem_cons_self x rest))
    · exact hub y h

/-! ### Lemmas on the fill walk -/

theorem fillDays_cons_some {g : List DailyBar} {d : Nat} {b : DailyBar}
    (h : g.find? (fun x => x.date == d) = some b) (c : Int) (days : List Nat) :
    fillDays g c (d :: days) = b :: fillDays g b.close days := by
  simp only [fillDays, h]

theorem fillDays_cons_none {g : List DailyBar} {d : Nat}
    (h : g.find? (fun x => x.date == d) = none) (c : Int) (days : List Nat) :
    fillDays g c (d :: days) = ⟨d, c, c, c, c⟩ :: fillDays g c days := by
  simp only [fillDays, h]

theorem lastCloseIn_cons_some {g : List DailyBar} {d : Nat} {b : DailyBar}
    (h : g.find? (fun x => x.date == d) = some b) (c : Int) (days : List Nat) :
    lastCloseIn g c (d :: days) = lastCloseIn g b.close days := by
  simp only [lastCloseIn, h]

theorem lastCloseIn_cons_none {g : List DailyBar} {d : Nat}
    (h : g.find? (fun x => x.date == d) = none) (c : Int) (days : List Nat) :
    lastCloseIn g c (d :: days) = lastCloseIn g c days := by
  simp only [lastCloseIn, h]

theorem fillDays_map_date (g : List DailyBar) (days : List Nat) :
    ∀ c : Int, (fillDays g c days).map (fun b => b.date) = days := by
  induction days with
  | nil => intro c; rfl
  | cons d days ih =>
    intro c
    cases h : g.find? (fun x => x.date == d) with
    | some b =>
      rw [fillDays_cons_some h]
      have hbd : b.date = d := by simpa using List.find?_some h
      simp [hbd, ih]
    | none =>
      rw [fillDays_cons_none h]
      simp [ih]

theorem fillDays_append (g : List DailyBar) (ds₁ : List Nat) :
    ∀ (ds₂ : List Nat) (c : Int),
      fillDays g c (ds₁ ++ ds₂) =
        fillDays g c ds₁ ++ fillDays g (lastCloseIn g c ds₁) ds₂ := by
  induction ds₁ with
  | nil => intro ds₂ c; rfl
  | cons d ds₁ ih =>
    intro ds₂ c
    cases h : g.find? (fun x => x.date == d) with
    | some b =>
      simp only [List.cons_append, fillDays_cons_some h, lastCloseIn_cons_some h, ih]
    | none =>
      simp only [List.cons_append, fillDays_cons_none h, lastCloseIn_cons_none h, ih]

theorem lastCloseIn_append (g : List DailyBar) (ds₁ : List Nat) :
    ∀ (ds₂ : List Nat) (c : Int),
      lastCloseIn g c (ds₁ ++ ds₂) = lastCloseIn g (lastCloseIn g c ds₁) ds₂ := by
  induction ds₁ with
  | nil => intro ds₂ c; rfl
  | cons d ds₁ ih =>
    intro ds₂ c
    cases h : g.find? (fun x => x.date == d) with
    | some b =>
      simp only [List.cons_append, lastCloseIn_cons_some h, ih]
    | none =>
      simp only [List.cons_append, lastCloseIn_cons_none h, ih]

theorem mem_fillDays {g : List DailyBar} {d : Nat} {b : DailyBar}
    (hfind : g.find? (fun x => x.date == d) = some b) (days : List Nat) :
    ∀ c : Int, d ∈ days → b ∈ fillDays g c days := by
  induction days with
  | nil => intro c h; cases h
  | cons e days ih =>
    intro c hd
    rcases List.mem_cons.mp hd with h | h
    · subst h
      rw [fillDays_cons_some hfind]
      exact List.mem_cons_self b _
    · cases hfe : g.find? (fun x => x.date == e) with
      | some b₂ => rw [fillDays_cons_some hfe]; exact List.mem_cons_of_mem b₂ (ih _ h)
      | none => rw [fillDays_cons_none hfe]; exact List.mem_cons_of_mem _ (ih _ h)

theorem lastCloseIn_of_none (g : List DailyBar) (days : List Nat) :
    ∀ c : Int, (∀ d ∈ days, g.find? (fun x => x.date == d) = none) →
      lastCloseIn g c days = c := by
  induction days with
  | nil => intro c _; rfl
  | cons d days ih =>
    intro c h
    rw [lastCloseIn_cons_none (h d (List.mem_cons_self d days))]
    exact ih c (fun e he => h e (List.mem_cons_of_mem d he))

/-! ### Group-frame lemmas -/

theorem find?_map_eq_some (fn : Nat → DailyBar) (hfn : ∀ x, (fn x).date = x)
    (dates : List Nat) : ∀ d ∈ dates,
      (dates.map fn).find? (fun b => b.date == d) = some (fn d) := by
  induction dates with
  | nil => intro d h; cases h
  | cons a t ih =>
    intro d hd
    by_cases h : a = d
    · subst h
      rw [List.map_cons, List.find?_cons_of_pos]
      simp [hfn]
    · rcases List.mem_cons.mp hd with h₂ | h₂
      · exact absurd h₂.symm h
      · rw [List.map_cons, List.find?_cons_of_neg]
        · exact ih d h₂
        · simp [hfn, h]

theorem find?_map_eq_none (fn : Nat → DailyBar) (hfn : ∀ x, (fn x).date = x)
    (dates : List Nat) (d : Nat) (hd : d ∉ dates) :
    (dates.map fn).find? (fun b => b.date == d) = none := by
  rw [List.find?_eq_none]
  intro b hb
  rcases List.mem_map.mp hb with ⟨x, hx, rfl⟩
  simp only [hfn, beq_iff_eq]
  intro h
  exact hd (h ▸ hx)

theorem mem_groupDates (l : List Obs) (d : Nat) :
    d ∈ groupDates l ↔ d ∈ l.map (fun o => o.date) := by
  unfold groupDates sortedObs
  rw [(List.perm_insertionSort (fun a b => a ≤ b) _).mem_iff, List.mem_dedup,
    ((List.perm_insertionSort tsLE l).map (fun o => o.date)).mem_iff]

theorem groupDates_ne_nil (l : List Obs) (h : l ≠ []) : groupDates l ≠ [] := by
  obtain ⟨o, ho⟩ := List.exists_mem_of_ne_nil l h
  exact List.ne_nil_of_mem ((mem_groupDates l o.date).mpr (List.mem_map_of_mem _ ho))

theorem barOf_date (d : Nat) (g : List Obs) : (barOf d g).date = d := by
  cases g <;> rfl

theorem chartGroups_map_date (l : List Obs) :
    (chartGroups l).map (fun b => b.date) = groupDates l := by
  unfold chartGroups
  rw [List.map_map]
  have h : ((fun b : DailyBar => b.date) ∘
      fun d => barOf d ((sortedObs l).filter (fun o => o.date == d))) = id := by
    funext x
    simp [barOf_date]
  rw [h, List.map_id]

theorem chartGroups_ne_nil (l : List Obs) (h : l ≠ []) : chartGroups l ≠ [] := by
  intro hc
  exact groupDates_ne_nil l h (by simpa [chartGroups, List.map_eq_nil_iff] using hc)

theorem find?_chartGroups (l : List Obs) (d : Nat) (hd : hasObs l d) :
    (chartGroups l).find? (fun b => b.date == d) = some (barOf d (obsOfDay l d)) := by
  have hmem : d ∈ groupDates l := by
    rcases hd with ⟨o, ho, he⟩
    exact (mem_groupDates l d).mpr (he ▸ List.mem_map_of_mem _ ho)
  exact find?_map_eq_some _ (fun e => barOf_date e _) (groupDates l) d hmem

theorem find?_chartGroups_none (l : List Obs) (d : Nat) (hd : ¬ hasObs l d) :
    (chartGroups l).find? (fun b => b.date == d) = none := by
  apply find?_map_eq_none _ (fun e => barOf_date e _)
  intro hmem
  apply hd
  rcases List.mem_map.mp ((mem_groupDates l d).mp hmem) with ⟨o, ho, he⟩
  exact ⟨o, ho, he⟩

/-! ### Date-extent lemmas -/

theorem minDate_le (l : List Obs) (o : Obs) (ho : o ∈ l) : minDate l ≤ o.date :=
  listMin_le _ _ (List.mem_map_of_mem _ ho)

theorem le_maxDate (l : List Obs) (o : Obs) (ho : o ∈ l) : o.date ≤ maxDate l :=
  le_listMax _ _ (List.mem_map_of_mem _ ho)

theorem minDate_hasObs (l : List Obs) (h : l ≠ []) : hasObs l (minDate l) := by
  have hmem := listMin_mem (l.map (fun o => o.date))
    (fun hm => h (List.map_eq_nil_iff.mp hm))
  rcases List.mem_map.mp hmem with ⟨o, ho, he⟩
  exact ⟨o, ho, he⟩

theorem minDate_le_maxDate (l : List Obs) (h : l ≠ []) : minDate l ≤ maxDate l := by
  obtain ⟨o, ho⟩ := List.exists_mem_of_ne_nil l h
  exact le_trans (minDate_le l o ho) (le_maxDate l o ho)

/-! ### The chart pipeline in closed form -/

theorem chart_eq (l : List Obs) (hne : l ≠ []) :
    create_candlestick_chart l =
      some (fillDays (chartGroups l) 0
        (List.range' (minDate l) (maxDate l + 1 - minDate l))) := by
  have hle : l.isEmpty = false := by
    cases l with
    | nil => exact absurd rfl hne
    | cons a t => rfl
  have h1 : create_candlestick_chart l = chartOfSorted (sortedObs l) := by
    unfold create_candlestick_chart sortedObs
    rw [if_neg (by simp [hle])]
  have h2 : chartOfSorted (sortedObs l) =
      if (chartGroups l).isEmpty then none
      else some (fillDays (chartGroups l) 0
        (List.range' (listMin ((chartGroups l).map (fun b => b.date)))
          (listMax ((chartGroups l).map (fun b => b.date)) + 1 -
            listMin ((chartGroups l).map (fun b => b.date))))) := rfl
  have hg : chartGroups l ≠ [] := chartGroups_ne_nil l hne
  have hmapne : l.map (fun o => o.date) ≠ [] :=
    fun hm => hne (List.map_eq_nil_iff.mp hm)
  have hmin : listMin ((chartGroups l).map (fun b => b.date)) = minDate l := by
    rw [chartGroups_map_date]
    exact listMin_congr _ _ (groupDates_ne_nil l hne) hmapne (fun x => mem_groupDates l x)
  have hmax : listMax ((chartGroups l).map (fun b => b.date)) = maxDate l := by
    rw [chartGroups_map_date]
    exact listMax_congr _ _ (groupDates_ne_nil l hne) hmapne (fun x => mem_groupDates l x)
  rw [h1, h2, if_neg (by simp [List.isEmpty_iff, hg]), hmin, hmax]

theorem range'_split (m n d : Nat) (h1 : m ≤ d) (h2 : d < m + n) :
    List.range' m n = List.range' m (d - m) ++ List.range' d (n - (d - m)) := by
  have h := List.range'_append m (d - m) (n - (d - m)) 1
  rw [one_mul] at h
  have hmd : m + (d - m) = d := by omega
  rw [hmd] at h
  have hn : n - (d - m) + (d - m) = n := by omega
  rw [hn] at h
  exact h.symm

/-! ### Claim theorems -/

/-- C1: for every non-empty observation list, each calendar date with at
least one observation yields a DailyBar in the chart whose open is the
rating of an earliest-timestamp observation of that day, whose close is
the rating of a latest-timestamp observation of that day, and whose high
and low are the maximum and minimum rating of that day. -/
theorem c1_daily_ohlc (l : List Obs) (d : Nat) (hne : l ≠ []) (hd : hasObs l d) :
    ∃ bars b, create_candlestick_chart l = some bars ∧ b ∈ bars ∧ b.date = d ∧
      (∃ o ∈ l, o.date = d ∧ b.open_ = o.rating ∧
        ∀ o₂ ∈ l, o₂.date = d → o.timestamp ≤ o₂.timestamp) ∧
      (∃ o ∈ l, o.date = d ∧ b.close = o.rating ∧
        ∀ o₂ ∈ l, o₂.date = d → o₂.timestamp ≤ o.timestamp) ∧
      (∃ o ∈ l, o.date = d ∧ b.high = o.rating) ∧
      (∀ o₂ ∈ l, o₂.date = d → o₂.rating ≤ b.high) ∧
      (∃ o ∈ l, o.date = d ∧ b.low = o.rating) ∧
      (∀ o₂ ∈ l, o₂.date = d → b.low ≤ o₂.rating) := by
  have hchart := chart_eq l hne
  have hfind := find?_chartGroups l d hd
  obtain ⟨od, hod, hodd⟩ := hd
  have hmle : minDate l ≤ d := hodd ▸ minDate_le l od hod
  have hdle : d ≤ maxDate l := hodd ▸ le_maxDate l od hod
  have hdrange : d ∈ List.range' (minDate l) (maxDate l + 1 - minDate l) := by
    rw [List.mem_range'_1]
    omega
  have hmem : barOf d (obsOfDay l d) ∈
      fillDays (chartGroups l) 0
        (List.range' (minDate l) (maxDate l + 1 - minDate l)) :=
    mem_fillDays hfind _ 0 hdrange
  have hgne : obsOfDay l d ≠ [] := obsOfDay_ne_nil l d ⟨od, hod, hodd⟩
  obtain ⟨o₀, rest, hcons⟩ := List.exists_cons_of_ne_nil hgne
  have hsorted₀ : List.Sorted tsLE (obsOfDay l d) := sorted_obsOfDay l d
  rw [hcons] at hsorted₀
  have hmemg : ∀ o, o ∈ obsOfDay l d ↔ o ∈ l ∧ o.date = d := fun o => mem_obsOfDay l d o
  have ho₀ : o₀ ∈ l ∧ o₀.date = d := (hmemg o₀).mp (hcons ▸ List.mem_cons_self o₀ rest)
  obtain ⟨hlmem, hlub⟩ := sorted_getLastD rest o₀ hsorted₀
  have holast : rest.getLastD o₀ ∈ l ∧ (rest.getLastD o₀).date = d :=
    (hmemg _).mp (hcons ▸ hlmem)
  refine ⟨_, _, hchart, hmem, barOf_date d _, ?_, ?_, ?_, ?_, ?_, ?_⟩
  · refine ⟨o₀, ho₀.1, ho₀.2, by rw [hcons]; rfl, ?_⟩
    intro o₂ ho₂ ho₂d
    have hin : o₂ ∈ o₀ :: rest := hcons ▸ (hmemg o₂).mpr ⟨ho₂, ho₂d⟩
    rcases List.mem_cons.mp hin with h | h
    · rw [h]
    · exact List.rel_of_sorted_cons hsorted₀ o₂ h
  · refine ⟨rest.getLastD o₀, holast.1, holast.2, by rw [hcons]; rfl, ?_⟩
    intro o₂ ho₂ ho₂d
    exact hlub o₂ (hcons ▸ (hmemg o₂).mpr ⟨ho₂, ho₂d⟩)
  · rcases foldMax_mem (rest.map (fun x => x.rating)) o₀.rating with h | h
    · exact ⟨o₀, ho₀.1, ho₀.2, by rw [hcons]; simp only [barOf]; rw [h]⟩
    · rcases List.mem_map.mp h with ⟨o, homem, heq⟩
      have ho : o ∈ l ∧ o.date = d :=
        (hmemg o).mp (hcons ▸ List.mem_cons_of_mem o₀ homem)
      exact ⟨o, ho.1, ho.2, by rw [hcons]; simp only [barOf]; rw [heq]⟩
  · intro o₂ ho₂ ho₂d
    have hin : o₂ ∈ o₀ :: rest := hcons ▸ (hmemg o₂).mpr ⟨ho₂, ho₂d⟩
    rw [hcons]
    simp only [barOf]
    rcases List.mem_cons.mp hin with h | h
    · rw [h]; exact le_foldMax _ _
    · exact mem_le_foldMax _ _ _ (List.mem_map_of_mem _ h)
  · rcases foldMin_mem (rest.map (fun x => x.rating)) o₀.rating with h | h
    · exact ⟨o₀, ho₀.1, ho₀.2, by rw [hcons]; simp only [barOf]; rw [h]⟩
    · rcases List.mem_map.mp h with ⟨o, homem, heq⟩
      have ho : o ∈ l ∧ o.date = d :=
        (hmemg o).mp (hcons ▸ List.mem_cons_of_mem o₀ homem)
      exact ⟨o, ho.1, ho.2, by rw [hcons]; simp only [barOf]; rw [heq]⟩
  · intro o₂ ho₂ ho₂d
    have hin : o₂ ∈ o₀ :: rest := hcons ▸ (hmemg o₂).mpr ⟨ho₂, ho₂d⟩
    rw [hcons]
    simp only [barOf]
    rcases List.mem_cons.mp hin with h | h
    · rw [h]; exact foldMin_le _ _
    · exact foldMin_le_mem _ _ _ (List.mem_map_of_mem _ h)

/-- C1 witness: Scenario B of the spec, two observations on day 5. -/
theorem c1_witness :
    hasObs [(⟨5, 900, 80⟩ : Obs), ⟨5, 950, 200⟩] 5 ∧
      (∃ bars b,
        create_candlestick_chart [(⟨5, 900, 80⟩ : Obs), ⟨5, 950, 200⟩] = some bars ∧
          b ∈ bars ∧ b.date = 5 ∧
          (∃ o ∈ [(⟨5, 900, 80⟩ : Obs), ⟨5, 950, 200⟩], o.date = 5 ∧ b.open_ = o.rating ∧
            ∀ o₂ ∈ [(⟨5, 900, 80⟩ : Obs), ⟨5, 950, 200⟩], o₂.date = 5 →
              o.timestamp ≤ o₂.timestamp) ∧
          (∃ o ∈ [(⟨5, 900, 80⟩ : Obs), ⟨5, 950, 200⟩], o.date = 5 ∧ b.close = o.rating ∧
            ∀ o₂ ∈ [(⟨5, 900, 80⟩ : Obs), ⟨5, 950, 200⟩], o₂.date = 5 →
              o₂.timestamp ≤ o.timestamp) ∧
          (∃ o ∈ [(⟨5, 900, 80⟩ : Obs), ⟨5, 950, 200⟩], o.date = 5 ∧ b.high = o.rating) ∧
          (∀ o₂ ∈ [(⟨5, 900, 80⟩ : Obs), ⟨5, 950, 200⟩], o₂.date = 5 → o₂.rating ≤ b.high) ∧
          (∃ o ∈ [(⟨5, 900, 80⟩ : Obs), ⟨5, 950, 200⟩], o.date = 5 ∧ b.low = o.rating) ∧
          (∀ o₂ ∈ [(⟨5, 900, 80⟩ : Obs), ⟨5, 950, 200⟩], o₂.date = 5 → b.low ≤ o₂.rating)) :=
  ⟨by decide, c1_daily_ohlc [⟨5, 900, 80⟩, ⟨5, 950, 200⟩] 5 (by decide) (by decide)⟩

/-- C2: every calendar day inside the covered range that has no
observations of its own gets a DailyBar whose open, high, low and close
all equal the close of the most recent prior day that has data. -/
theorem c2_gap_fill (l : List Obs) (d : Nat) (hne : l ≠ [])
    (hlo : minDate l ≤ d) (hhi : d ≤ maxDate l) (hno : ¬ hasObs l d) :
    ∃ bars d₀, create_candlestick_chart l = some bars ∧
      hasObs l d₀ ∧ minDate l ≤ d₀ ∧ d₀ < d ∧
      (∀ e, d₀ < e → e < d → ¬ hasObs l e) ∧
      (⟨d, (barOf d₀ (obsOfDay l d₀)).close, (barOf d₀ (obsOfDay l d₀)).close,
          (barOf d₀ (obsOfDay l d₀)).close, (barOf d₀ (obsOfDay l d₀)).close⟩ :
        DailyBar) ∈ bars := by
  have hmM := minDate_le_maxDate l hne
  have hminobs := minDate_hasObs l hne
  have hmlt : minDate l < d :=
    lt_of_le_of_ne hlo (fun h => hno (h ▸ hminobs))
  have hex : ∃ d₀, hasObs l d₀ ∧ minDate l ≤ d₀ ∧ d₀ < d ∧
      ∀ e, d₀ < e → e < d → ¬ hasObs l e := by
    have hmc : minDate l ∈
        (List.range' (minDate l) (d - minDate l)).filter (fun e => hasObsB l e) := by
      rw [List.mem_filter]
      refine ⟨?_, (hasObsB_iff l _).mpr hminobs⟩
      rw [List.mem_range'_1]
      omega
    have hcne := List.ne_nil_of_mem hmc
    have hd₀c := listMax_mem _ hcne
    have hd₀r : minDate l ≤
          listMax ((List.range' (minDate l) (d - minDate l)).filter (fun e => hasObsB l e)) ∧
        listMax ((List.range' (minDate l) (d - minDate l)).filter (fun e => hasObsB l e)) < d := by
      have h := (List.mem_filter.mp hd₀c).1
      rw [List.mem_range'_1] at h
      omega
    refine ⟨_, (hasObsB_iff l _).mp (List.mem_filter.mp hd₀c).2, hd₀r.1, hd₀r.2, ?_⟩
    intro e he1 he2 hobs
    have hec : e ∈ (List.range' (minDate l) (d - minDate l)).filter (fun e => hasObsB l e) := by
      rw [List.mem_filter]
      refine ⟨?_, (hasObsB_iff l e).mpr hobs⟩
      rw [List.mem_range'_1]
      omega
    exact absurd (le_listMax _ e hec) (by omega)
  obtain ⟨d₀, hd₀obs, hd₀lo, hd₀lt, hbetween⟩ := hex
  have hc₁ : lastCloseIn (chartGroups l) 0 (List.range' (minDate l) (d - minDate l)) =
      (barOf d₀ (obsOfDay l d₀)).close := by
    rw [range'_split (minDate l) (d - minDate l) d₀ hd₀lo (by omega),
      lastCloseIn_append,
      show (d - minDate l) - (d₀ - minDate l) = (d - d₀ - 1) + 1 by omega,
      List.range'_succ,
      lastCloseIn_cons_some (find?_chartGroups l d₀ hd₀obs)]
    apply lastCloseIn_of_none
    intro e he
    rw [List.mem_range'_1] at he
    exact find?_chartGroups_none l e (hbetween e (by omega) (by omega))
  refine ⟨_, d₀, chart_eq l hne, hd₀obs, hd₀lo, hd₀lt, hbetween, ?_⟩
  rw [range'_split (minDate l) (maxDate l + 1 - minDate l) d hlo (by omega),
    fillDays_append,
    show (maxDate l + 1 - minDate l) - (d - minDate l) = (maxDate l - d) + 1 by omega,
    List.range'_succ, hc₁,
    fillDays_cons_none (find?_chartGroups_none l d hno)]
  exact List.mem_append_right _ (List.mem_cons_self _ _)

/-- C2 witness: Scenario A of the spec, observations on days 10 and 12,
day 11 forward-filled. -/
theorem c2_witness :
    (minDate [(⟨10, 1000, 100⟩ : Obs), ⟨12, 1050, 300⟩] ≤ 11) ∧
      (11 ≤ maxDate [(⟨10, 1000, 100⟩ : Obs), ⟨12, 1050, 300⟩]) ∧
      ¬ hasObs [(⟨10, 1000, 100⟩ : Obs), ⟨12, 1050, 300⟩] 11 ∧
      (∃ bars d₀,
        create_candlestick_chart [(⟨10, 1000, 100⟩ : Obs), ⟨12, 1050, 300⟩] = some bars ∧
          hasObs [(⟨10, 1000, 100⟩ : Obs), ⟨12, 1050, 300⟩] d₀ ∧
          minDate [(⟨10, 1000, 100⟩ : Obs), ⟨12, 1050, 300⟩] ≤ d₀ ∧ d₀ < 11 ∧
          (∀ e, d₀ < e → e < 11 → ¬ hasObs [(⟨10, 1000, 100⟩ : Obs), ⟨12, 1050, 300⟩] e) ∧
          (⟨11,
              (barOf d₀ (obsOfDay [(⟨10, 1000, 100⟩ : Obs), ⟨12, 1050, 300⟩] d₀)).close,
              (barOf d₀ (obsOfDay [(⟨10, 1000, 100⟩ : Obs), ⟨12, 1050, 300⟩] d₀)).close,
              (barOf d₀ (obsOfDay [(⟨10, 1000, 100⟩ : Obs), ⟨12, 1050, 300⟩] d₀)).close,
              (barOf d₀ (obsOfDay [(⟨10, 1000, 100⟩ : Obs), ⟨12, 1050, 300⟩] d₀)).close⟩ :
            DailyBar) ∈ bars) :=
  ⟨by decide, by decide, by decide,
    c2_gap_fill [⟨10, 1000, 100⟩, ⟨12, 1050, 300⟩] 11 (by decide) (by decide) (by decide)
      (by decide)⟩

/-- C3: for every non-empty observation list the chart has exactly
`maxDate - minDate + 1` bars, whose dates are precisely the inclusive
calendar range from the minimum to the maximum observed date, in strictly
ascending order (hence contiguous and duplicate-free). -/
theorem c3_calendar_range (l : List Obs) (hne : l ≠ []) :
    ∃ bars, create_candlestick_chart l = some bars ∧
      bars.length = maxDate l - minDate l + 1 ∧
      bars.map (fun b => b.date) =
        List.range' (minDate l) (maxDate l - minDate l + 1) ∧
      List.Pairwise (fun a b => a < b) (bars.map (fun b => b.date)) := by
  have hmM := minDate_le_maxDate l hne
  have hn : maxDate l + 1 - minDate l = maxDate l - minDate l + 1 := by omega
  refine ⟨_, chart_eq l hne, ?_, ?_, ?_⟩
  · have h := congrArg List.length
      (fillDays_map_date (chartGroups l)
        (List.range' (minDate l) (maxDate l + 1 - minDate l)) 0)
    rw [List.length_map, List.length_range'] at h
    rw [h, hn]
  · rw [fillDays_map_date, hn]
  · rw [fillDays_map_date]
    exact List.pairwise_lt_range' _ _

/-- C3 witness: the two-observation list of Scenario A covers days 10-12. -/
theorem c3_witness :
    ([(⟨10, 1000, 100⟩ : Obs), ⟨12, 1050, 300⟩] ≠ ([] : List Obs)) ∧
      (∃ bars,
        create_candlestick_chart [(⟨10, 1000, 100⟩ : Obs), ⟨12, 1050, 300⟩] = some bars ∧
          bars.length = maxDate [(⟨10, 1000, 100⟩ : Obs), ⟨12, 1050, 300⟩] -
            minDate [(⟨10, 1000, 100⟩ : Obs), ⟨12, 1050, 300⟩] + 1 ∧
          bars.map (fun b => b.date) =
            List.range' (minDate [(⟨10, 1000, 100⟩ : Obs), ⟨12, 1050, 300⟩])
              (maxDate [(⟨10, 1000, 100⟩ : Obs), ⟨12, 1050, 300⟩] -
                minDate [(⟨10, 1000, 100⟩ : Obs), ⟨12, 1050, 300⟩] + 1) ∧
          List.Pairwise (fun a b => a < b) (bars.map (fun b => b.date))) :=
  ⟨by decide, c3_calendar_range [⟨10, 1000, 100⟩, ⟨12, 1050, 300⟩] (by decide)⟩

/-- C4 counterexample: two same-day observations with equal timestamps are
a permutation of their reversal, yet the two input orders produce charts
with swapped open and close. -/
theorem c4_counterexample :
    ([⟨0, 1000, 100⟩, ⟨0, 1100, 100⟩] : List Obs).Perm
        [⟨0, 1100, 100⟩, ⟨0, 1000, 100⟩] ∧
      create_candlestick_chart [⟨0, 1000, 100⟩, ⟨0, 1100, 100⟩] ≠
        create_candlestick_chart [⟨0, 1100, 100⟩, ⟨0, 1000, 100⟩] := by
  refine ⟨by decide, by decide⟩

/-- C4 amended: when all observation timestamps are pairwise distinct, the
chart is invariant under any permutation of the input observations. -/
theorem c4_perm_invariant (l₁ l₂ : List Obs)
    (hnd : (l₁.map (fun o => o.timestamp)).Nodup) (hp : l₁.Perm l₂) :
    create_candlestick_chart l₁ = create_candlestick_chart l₂ := by
  have hperm : (sortedObs l₁).Perm (sortedObs l₂) :=
    ((List.perm_insertionSort tsLE l₁).trans hp).trans
      (List.perm_insertionSort tsLE l₂).symm
  have hnd₁ : ((sortedObs l₁).map (fun o => o.timestamp)).Nodup :=
    (((List.perm_insertionSort tsLE l₁).symm).map _).nodup hnd
  have hnd₂ : ((sortedObs l₂).map (fun o => o.timestamp)).Nodup :=
    (hperm.map _).nodup hnd₁
  have hpw₁ : List.Pairwise (fun a b : Obs => a.timestamp ≠ b.timestamp) (sortedObs l₁) := by
    have h : List.Pairwise (fun a b : Nat => a ≠ b)
        ((sortedObs l₁).map (fun o => o.timestamp)) := hnd₁
    exact List.pairwise_map.mp h
  have hpw₂ : List.Pairwise (fun a b : Obs => a.timestamp ≠ b.timestamp) (sortedObs l₂) := by
    have h : List.Pairwise (fun a b : Nat => a ≠ b)
        ((sortedObs l₂).map (fun o => o.timestamp)) := hnd₂
    exact List.pairwise_map.mp h
  have hle₁ : List.Pairwise tsLE (sortedObs l₁) := List.sorted_insertionSort tsLE l₁
  have hle₂ : List.Pairwise tsLE (sortedObs l₂) := List.sorted_insertionSort tsLE l₂
  have hlt₁ : List.Sorted (fun a b : Obs => a.timestamp < b.timestamp) (sortedObs l₁) :=
    (hle₁.and hpw₁).imp (fun h => lt_of_le_of_ne h.1 h.2)
  have hlt₂ : List.Sorted (fun a b : Obs => a.timestamp < b.timestamp) (sortedObs l₂) :=
    (hle₂.and hpw₂).imp (fun h => lt_of_le_of_ne h.1 h.2)
  have hs : sortedObs l₁ = sortedObs l₂ := List.eq_of_perm_of_sorted hperm hlt₁ hlt₂
  have hemp : l₁.isEmpty = l₂.isEmpty := by
    have hlen := hp.length_eq
    cases l₁ <;> cases l₂ <;> simp_all
  unfold sortedObs at hs
  unfold create_candlestick_chart
  rw [hemp, hs]

/-- C4 witness: permutation invariance on a two-observation list with
distinct timestamps. -/
theorem c4_witness :
    create_candlestick_chart [⟨0, 1000, 100⟩, ⟨1, 1100, 200⟩] =
      create_candlestick_chart [⟨1, 1100, 200⟩, ⟨0, 1000, 100⟩] :=
  c4_perm_invariant _ _ (by decide) (by decide)

theorem lookupEntry_filter_out {α : Type} (m : List (String × α × Nat)) (k : String) :
    lookupEntry (m.filter (fun e => !(e.1 == k))) k = none := by
  have h : (m.filter (fun e => !(e.1 == k))).find? (fun e => e.1 == k) = none := by
    rw [List.find?_eq_none]
    intro x hx
    have hne := (List.mem_filter.mp hx).2
    simp only [Bool.not_eq_eq_eq_not, Bool.not_true, beq_eq_false_iff_ne, ne_eq] at hne
    simp [hne]
  unfold lookupEntry
  rw [h]
  rfl

/-- C5: an immediate `get` after `set` under the same key returns the
stored value, and once the elapsed time since insertion is at least the
TTL of 300 seconds, `get` misses and the entry is purged from the store. -/
theorem c5_cache_ttl {α : Type} (c : SimpleCache α) (key : String) (v : α)
    (now now₂ : Nat) (htt : c.timeout = 300) :
    ((c.set now key v).get now key).1 = some v ∧
      (300 ≤ now₂ - now →
        ((c.set now key v).get now₂ key).1 = none ∧
          lookupEntry ((c.set now key v).get now₂ key).2.cache key = none) := by
  have hlook : lookupEntry ((c.set now key v).cache) key = some (v, now) := by
    show lookupEntry ((key, v, now) :: c.cache.filter (fun e => !(e.1 == key))) key
        = some (v, now)
    unfold lookupEntry
    rw [List.find?_cons_of_pos _ (by simp)]
    rfl
  constructor
  · have hcond : now - now < (c.set now key v).timeout := by
      show now - now < c.timeout
      omega
    simp only [SimpleCache.get, hlook]
    rw [if_pos hcond]
  · intro h
    have hcond : ¬ (now₂ - now < (c.set now key v).timeout) := by
      show ¬ (now₂ - now < c.timeout)
      omega
    simp only [SimpleCache.get, hlook]
    rw [if_neg hcond]
    exact ⟨rfl, lookupEntry_filter_out _ key⟩

/-- C5 witness: round trip and expiry on a fresh cache with TTL 300. -/
theorem c5_witness :
    (((⟨[], 300⟩ : SimpleCache Int).set 0 "k" 5).get 0 "k").1 = some 5 ∧
      (((⟨[], 300⟩ : SimpleCache Int).set 0 "k" 5).get 300 "k").1 = none ∧
      lookupEntry ((((⟨[], 300⟩ : SimpleCache Int).set 0 "k" 5)).get 300 "k").2.cache "k" =
        none :=
  ⟨(c5_cache_ttl ⟨[], 300⟩ "k" 5 0 300 rfl).1,
    (c5_cache_ttl ⟨[], 300⟩ "k" 5 0 300 rfl).2 (by decide)⟩

/-- C6 counterexample: a 404 response (nonexistent user) makes
`get_user_archives` return the empty list rather than fail with
`NotFoundError`, and an exhausted-retries network error also returns the
empty list rather than fail with `NetworkError` — so an empty sequence is
not returned only on a successful response with an empty archive list. -/
theorem c6_counterexample :
    get_user_archives (.http 404 [(2024, 1)]) = [] ∧
      get_user_archives .netErr = [] :=
  ⟨rfl, rfl⟩

/-- C6 amended: the archive listing never fails; any non-200 response
(404 included) and any network error yield the empty sequence, and a
nonempty result can only come from a 200 response returning its parsed
archive list. -/
theorem c6_archives_never_fail (r : ArchivesResponse) :
    (∀ (status : Nat) (archives : List (Nat × Nat)),
        r = .http status archives → status ≠ 200 → get_user_archives r = []) ∧
      (r = .netErr → get_user_archives r = []) ∧
      (get_user_archives r ≠ [] →
        ∃ archives, r = .http 200 archives ∧ get_user_archives r = archives) := by
  refine ⟨?_, ?_, ?_⟩
  · rintro status archives rfl hs
    simp [get_user_archives, hs]
  · rintro rfl
    rfl
  · intro hne
    cases r with
    | http status archives =>
      by_cases hs : status = 200
      · subst hs
        exact ⟨archives, rfl, rfl⟩
      · exact absurd (by simp [get_user_archives, hs]) hne
    | netErr => exact absurd rfl hne

/-- C6 witness: the network-error case returns the empty sequence. -/
theorem c6_witness : get_user_archives ArchivesResponse.netErr = [] :=
  (c6_archives_never_fail .netErr).2.1 rfl

/-- C7: a 404 monthly response yields an empty list (not an error), any
other non-200 status also yields an empty list, and when every period
response fails (no 200 among them) the fan-in concatenation over all
periods is the empty collection — the fetch path never raises. -/
theorem c7_fetch_tolerance :
    (∀ (games : List RawGame) (tc : String),
        get_single_month_games (.http 404 games) tc = []) ∧
      (∀ (status : Nat) (games : List RawGame) (tc : String), status ≠ 200 →
        get_single_month_games (.http status games) tc = []) ∧
      (∀ (w : World) (months : List (Nat × Nat)) (tc : String),
        (∀ p ∈ months, ∀ (s : Nat) (games : List RawGame),
            w.months p.1 p.2 = .http s games → s ≠ 200) →
        List.foldl (fun acc p => acc ++ get_single_month_games (w.months p.1 p.2) tc)
          [] months = []) := by
  have hsingle : ∀ (r : MonthResponse) (tc : String),
      (∀ (s : Nat) (games : List RawGame), r = .http s games → s ≠ 200) →
      get_single_month_games r tc = [] := by
    intro r tc h
    cases r with
    | http s games => simp [get_single_month_games, h s games rfl]
    | netErr => rfl
  refine ⟨?_, ?_, ?_⟩
  · intro games tc
    rfl
  · intro status games tc hs
    simp [get_single_month_games, hs]
  · intro w months tc hall
    have key : ∀ (ms : List (Nat × Nat)) (acc : List RawGame),
        (∀ p ∈ ms, ∀ (s : Nat) (games : List RawGame),
            w.months p.1 p.2 = .http s games → s ≠ 200) →
        List.foldl (fun acc p => acc ++ get_single_month_games (w.months p.1 p.2) tc)
          acc ms = acc := by
      intro ms
      induction ms with
      | nil => intro acc _; rfl
      | cons p ms ih =>
        intro acc h
        rw [List.foldl_cons, hsingle _ tc (h p (List.mem_cons_self p ms)),
          List.append_nil]
        exact ih acc (fun q hq => h q (List.mem_cons_of_mem p hq))
    exact key months [] hall

/-- C7 witness: a 404 month, a 500 month, and an all-failing fan-in. -/
theorem c7_witness :
    get_single_month_games
        (.http 404 [⟨⟨some "a", some 1⟩, ⟨some "b", some 2⟩, some 10, some "blitz"⟩])
        "blitz" = [] ∧
      get_single_month_games (.http 500 []) "blitz" = [] ∧
      List.foldl
        (fun acc p => acc ++ get_single_month_games
          ((⟨.http 200, .http 200 [], fun _ _ => .netErr⟩ : World).months p.1 p.2) "blitz")
        [] [(2024, 1), (2024, 2)] = [] :=
  ⟨c7_fetch_tolerance.1 _ "blitz",
    c7_fetch_tolerance.2.1 500 [] "blitz" (by decide),
    c7_fetch_tolerance.2.2 ⟨.http 200, .http 200 [], fun _ _ => .netErr⟩
      [(2024, 1), (2024, 2)] "blitz"
      (fun _ _ _ games h => MonthResponse.noConfusion h)⟩

/-- C8 counterexample: a 404 profile lookup makes the orchestrator report
the message "User not found" — without the trailing period the claim
quotes. -/
theorem c8_counterexample :
    fetch_and_process_games ⟨.http 404, .http 200 [(2024, 1)], fun _ _ => .http 200 []⟩
        "alice" "blitz" = (none, some "User not found") ∧
      (some "User not found" : Option String) ≠ some "User not found." :=
  ⟨rfl, by decide⟩

/-- C8 amended: whenever the profile lookup returns 404 the orchestrator
aborts with `(none, some "User not found")`, whatever the archives
response and the monthly responses are — so neither archive listing nor
any period fetch can influence the outcome. -/
theorem c8_profile_404_aborts (archives : ArchivesResponse)
    (months : Nat → Nat → MonthResponse) (username time_control : String) :
    fetch_and_process_games ⟨.http 404, archives, months⟩ username time_control
      = (none, some "User not found") := rfl

/-- C9: a record whose `end_time` is missing or zero yields no
observation, and consequently no extracted observation carries an
epoch-zero timestamp. -/
theorem c9_falsy_end_time (username : String) (g : RawGame) (games : List RawGame) :
    (g.end_time = none ∨ g.end_time = some 0 → extractObs username g = none) ∧
      ∀ o ∈ extract_game_data games username, o.timestamp ≠ 0 := by
  constructor
  · intro h
    rcases h with h | h <;> simp [extractObs, h]
  · intro o ho
    rcases List.mem_filterMap.mp ho with ⟨game, _, hex⟩
    cases het : game.end_time with
    | none => simp [extractObs, het] at hex
    | some t =>
      cases t with
      | zero => simp [extractObs, het] at hex
      | succ n =>
        simp only [extractObs, het] at hex
        rw [← Option.some.inj hex]
        exact Nat.succ_ne_zero n

/-- C9 witness: an epoch-zero record extracts to nothing, and a real
observation has a nonzero timestamp. -/
theorem c9_witness :
    extractObs "u" ⟨⟨some "u", some 1000⟩, ⟨some "v", some 900⟩, some 0, some "blitz"⟩
        = none ∧
      (⟨1, 1000, 86400⟩ : Obs).timestamp ≠ 0 :=
  ⟨(c9_falsy_end_time "u"
      ⟨⟨some "u", some 1000⟩, ⟨some "v", some 900⟩, some 0, some "blitz"⟩ []).1
      (Or.inr rfl),
    (c9_falsy_end_time "u"
      ⟨⟨some "u", some 1000⟩, ⟨some "v", some 900⟩, some 0, some "blitz"⟩
      [⟨⟨some "u", some 1000⟩, ⟨some "v", some 900⟩, some 86400, some "blitz"⟩]).2
      ⟨1, 1000, 86400⟩ (by decide)⟩

theorem get_snd_cases {α : Type} (c : SimpleCache α) (now : Nat) (k : String) :
    (c.get now k).2 = c ∨
      (c.get now k).2 = ⟨c.cache.filter (fun e => !(e.1 == k)), c.timeout⟩ := by
  cases h : lookupEntry c.cache k with
  | none =>
    simp only [SimpleCache.get, h]
    exact Or.inl trivial
  | some p =>
    obtain ⟨v, ts⟩ := p
    simp only [SimpleCache.get, h]
    by_cases hc : now - ts < c.timeout
    · rw [if_pos hc]
      exact Or.inl rfl
    · rw [if_neg hc]
      exact Or.inr rfl

/-- C10: when a POST request ends in any error outcome, the cache state
after the request holds nothing new for the request's cache key — it is
either the incoming state unchanged, or the incoming state with only the
(lazily expired) entry under that key removed; no entry is ever inserted
on an error path. -/
theorem c10_no_cache_on_error (st : SimpleCache (List DailyBar)) (now : Nat) (w : World)
    (u tc msg : String) (st' : SimpleCache (List DailyBar))
    (h : index_post st now w u tc = (.indexPage (some msg), st')) :
    st' = st ∨
      st' = ⟨st.cache.filter
          (fun e => !(e.1 == trimStr u ++ "_" ++ toLowerStr (trimStr tc))),
        st.timeout⟩ := by
  simp only [index_post] at h
  cases hval : validate_username (trimStr u) with
  | false =>
    rw [if_pos (by rw [hval]; rfl)] at h
    simp only [Prod.mk.injEq] at h
    exact Or.inl h.2.symm
  | true =>
    rw [if_neg (by rw [hval]; simp)] at h
    cases htc : (["bullet", "blitz", "rapid", "daily"].contains
        (toLowerStr (trimStr tc))) with
    | false =>
      rw [if_pos (by rw [htc]; rfl)] at h
      simp only [Prod.mk.injEq] at h
      exact Or.inl h.2.symm
    | true =>
      rw [if_neg (by rw [htc]; simp)] at h
      rcases hget : st.get now (trimStr u ++ "_" ++ toLowerStr (trimStr tc))
        with ⟨res, st₁⟩
      rw [hget] at h
      have hst₁ : st₁ = st ∨
          st₁ = ⟨st.cache.filter
              (fun e => !(e.1 == trimStr u ++ "_" ++ toLowerStr (trimStr tc))),
            st.timeout⟩ := by
        have hcases := get_snd_cases st now (trimStr u ++ "_" ++ toLowerStr (trimStr tc))
        rw [hget] at hcases
        exact hcases
      cases res with
      | some cached => simp at h
      | none =>
        rcases hfetch : fetch_and_process_games w (trimStr u) (toLowerStr (trimStr tc))
          with ⟨fig, err⟩
        rw [hfetch] at h
        cases err with
        | some e =>
          simp only [Prod.mk.injEq] at h
          exact h.2 ▸ hst₁
        | none =>
          cases fig with
          | some f => simp at h
          | none =>
            simp only [Prod.mk.injEq] at h
            exact h.2 ▸ hst₁

/-- C10 witness: a not-found request against an empty cache leaves the
cache without an entry for the key. -/
theorem c10_witness :
    (⟨[], 300⟩ : SimpleCache (List DailyBar)) = ⟨[], 300⟩ ∨
      (⟨[], 300⟩ : SimpleCache (List DailyBar)) =
        ⟨(⟨[], 300⟩ : SimpleCache (List DailyBar)).cache.filter
            (fun e => !(e.1 == trimStr "alice" ++ "_" ++ toLowerStr (trimStr "blitz"))),
          (⟨[], 300⟩ : SimpleCache (List DailyBar)).timeout⟩ :=
  c10_no_cache_on_error ⟨[], 300⟩ 0 ⟨.http 404, .http 200 [], fun _ _ => .netErr⟩
    "alice" "blitz" "User not found" ⟨[], 300⟩ (by decide)

end ChessApp
